import Mathlib

/-!
Verification of the PoolParty covert-channel client (static/inner.js).

The development shallowly embeds the client's pure logic in Lean:

* the integer codec (listToBigInteger, bigIntegerToList, bigIntegerToHex),
  with JavaScript numbers modelled as Nat (all values involved are far
  below 2^53, so JS arithmetic is exact on them);
* the socket-pool state as a list of Booleans in insertion order
  (a JS Set iterates in insertion order, so the first element is the
  oldest socket; true means the socket is alive, false means it has
  reached readyState 3 and awaits garbage collection);
* the bulk operations consume/release/probe and the isSender role
  negotiation, with the environment (deaths of sockets during the
  settling period) passed as an explicit function, and the number of
  milliseconds slept recorded in the result;
* a held-count level model of the transmitter/receiver pulse exchange,
  in which the shared server capacity is modelled from the spec
  (the concrete pool service is an external collaborator);
* the pulse schedule of sender and receiver as rational wall-clock
  times, and the cycle-start rounding.
-/

namespace PoolParty

/-- Pool configuration constants, from the SocketPool constructor. -/
structure PoolConfig where
  listSize : Nat
  maxSlots : Nat
  maxValue : Nat
  pulseMs : Nat
  settlingTimeMs : Nat

/-- The Chrome preset of the SocketPool constructor. -/
def chromeConfig : PoolConfig :=
  { listSize := 5, maxSlots := 255, maxValue := 128, pulseMs := 50, settlingTimeMs := 0 }

/-- The Firefox preset of the SocketPool constructor. -/
def firefoxConfig : PoolConfig :=
  { listSize := 5, maxSlots := 255, maxValue := 128, pulseMs := 350, settlingTimeMs := 50 }

/-! ## Integer codec -/

/-- Embedding of listToBigInteger: fold `result = result * maxSmallInteger + list[i]`
for i from `listSize - 1` down to 0.  Out-of-range reads (which never occur on the
lists the program builds) default to 0. -/
def listToBigInteger (list : List Nat) (listSize maxSmallInteger : Nat) : Nat :=
  ((List.range listSize).reverse).foldl
    (fun result i => result * maxSmallInteger + list.getD i 0) 0

/-- Embedding of bigIntegerToList: repeatedly push `feed % maxSmallInteger` and
replace feed by `(feed - feed % maxSmallInteger) / maxSmallInteger`, `listSize` times. -/
def bigIntegerToList (bigInteger listSize maxSmallInteger : Nat) : List Nat :=
  match listSize with
  | 0 => []
  | Nat.succ n =>
      (bigInteger % maxSmallInteger) ::
        bigIntegerToList ((bigInteger - bigInteger % maxSmallInteger) / maxSmallInteger)
          n maxSmallInteger

/-- Base-16 digit list of a number, most significant digit first: the model of
JavaScript Number.prototype.toString(16) on a nonnegative integer, with each
character represented by its digit value. -/
def hexDigits (n : Nat) : List Nat :=
  if n < 16 then [n]
  else hexDigits (n / 16) ++ [n % 16]
  decreasing_by exact Nat.div_lt_self (by omega) (by omega)

/-- Value of a most-significant-first base-16 digit list. -/
def fromHexDigits (l : List Nat) : Nat :=
  l.foldl (fun acc d => 16 * acc + d) 0

/-- Embedding of bigIntegerToHex: add `16 ^ nHexDigits` with
`nHexDigits = ceil(numBits / 4)`, convert to hex digits, and drop the leading
digit, yielding a fixed-width zero-padded representation. -/
def bigIntegerToHex (bigInteger numBits : Nat) : List Nat :=
  (hexDigits (bigInteger + 16 ^ ((numBits + 3) / 4))).drop 1

/-! ## Codec lemmas -/

theorem foldl_mul_add_acc (m : Nat) (g : Nat → Nat) (l : List Nat) :
    ∀ a : Nat, l.foldl (fun r i => r * m + g i) a
      = a * m ^ l.length + l.foldl (fun r i => r * m + g i) 0 := by
  induction l with
  | nil => intro a; simp
  | cons x t ih =>
      intro a
      simp only [List.foldl_cons, List.length_cons]
      rw [ih (a * m + g x), ih (0 * m + g x)]
      ring

theorem listToBigInteger_succ (list : List Nat) (n m : Nat) :
    listToBigInteger list (n + 1) m
      = list.getD n 0 * m ^ n + listToBigInteger list n m := by
  unfold listToBigInteger
  rw [List.range_succ, List.reverse_append]
  simp only [List.reverse_singleton, List.singleton_append, List.foldl_cons]
  rw [foldl_mul_add_acc]
  simp

theorem listToBigInteger_cons (a : Nat) (l : List Nat) (m : Nat) :
    ∀ n, listToBigInteger (a :: l) (n + 1) m = a + m * listToBigInteger l n m := by
  intro n
  induction n with
  | zero =>
      rw [listToBigInteger_succ]
      simp [listToBigInteger]
  | succ n ih =>
      rw [listToBigInteger_succ, ih, listToBigInteger_succ]
      simp only [List.getD_cons_succ]
      ring

/-- In the encoder's feed update, subtracting the remainder and dividing is
ordinary natural division. -/
theorem feed_step (x m : Nat) (hm : 1 ≤ m) : (x - x % m) / m = x / m := by
  have h := Nat.div_add_mod x m
  have hle : x % m ≤ x := Nat.mod_le x m
  have : x - x % m = m * (x / m) := by omega
  rw [this, Nat.mul_div_cancel_left _ (by omega)]

/--
C2: For every listSize >= 0, every maxValue >= 1, and every integer x with
0 <= x < maxValue ^ listSize, decoding the encoding round-trips:
listToBigInteger (bigIntegerToList x listSize maxValue) listSize maxValue = x.
-/
theorem codec_round_trip (listSize maxValue x : Nat) (hm : 1 ≤ maxValue)
    (hx : x < maxValue ^ listSize) :
    listToBigInteger (bigIntegerToList x listSize maxValue) listSize maxValue = x := by
  induction listSize generalizing x with
  | zero =>
      have : x = 0 := by simpa using hx
      subst this
      simp [bigIntegerToList, listToBigInteger]
  | succ n ih =>
      have hdiv : x / maxValue < maxValue ^ n := by
        rw [Nat.div_lt_iff_lt_mul (by omega)]
        calc x < maxValue ^ (n + 1) := hx
        _ = maxValue ^ n * maxValue := by rw [pow_succ]
      rw [bigIntegerToList, listToBigInteger_cons, feed_step x maxValue hm,
        ih (x / maxValue) hdiv]
      exact Nat.mod_add_div x maxValue

/-- Witness for C2 at listSize = 2, maxValue = 3, x = 7. -/
theorem codec_round_trip_witness :
    listToBigInteger (bigIntegerToList 7 2 3) 2 3 = 7 :=
  codec_round_trip 2 3 7 (by decide) (by decide)

/-! ## Hex formatting lemmas -/

theorem hexDigits_lt (n : Nat) (hn : n < 16) : hexDigits n = [n] := by
  rw [hexDigits]
  simp [hn]

theorem hexDigits_ge (n : Nat) (hn : ¬ n < 16) :
    hexDigits n = hexDigits (n / 16) ++ [n % 16] := by
  rw [hexDigits]
  simp [hn]

theorem fromHexDigits_append_single (l : List Nat) (d : Nat) :
    fromHexDigits (l ++ [d]) = 16 * fromHexDigits l + d := by
  simp [fromHexDigits, List.foldl_append]

/-- The hex digit list of a number decodes back to it. -/
theorem fromHexDigits_hexDigits (n : Nat) : fromHexDigits (hexDigits n) = n := by
  induction n using Nat.strong_induction_on with
  | _ n ih =>
      by_cases hn : n < 16
      · rw [hexDigits_lt n hn]
        simp [fromHexDigits]
      · rw [hexDigits_ge n hn, fromHexDigits_append_single,
          ih (n / 16) (Nat.div_lt_self (by omega) (by omega))]
        omega

/-- Every entry of a hex digit list is a base-16 digit. -/
theorem hexDigits_mem_lt (n : Nat) : ∀ d ∈ hexDigits n, d < 16 := by
  induction n using Nat.strong_induction_on with
  | _ n ih =>
      by_cases hn : n < 16
      · rw [hexDigits_lt n hn]
        simpa using hn
      · rw [hexDigits_ge n hn]
        intro d hd
        rcases List.mem_append.mp hd with h | h
        · exact ih (n / 16) (Nat.div_lt_self (by omega) (by omega)) d h
        · simp only [List.mem_singleton] at h
          subst h
          exact Nat.mod_lt _ (by omega)

/-- A number below 16 ^ h has at most h hex digits (for h >= 1). -/
theorem hexDigits_length_le (h : Nat) : ∀ n, 1 ≤ h → n < 16 ^ h →
    (hexDigits n).length ≤ h := by
  induction h with
  | zero => intro n h1; omega
  | succ h ih =>
      intro n _ hn
      by_cases hsmall : n < 16
      · rw [hexDigits_lt n hsmall]
        simp
      · rw [hexDigits_ge n hsmall]
        have hdiv : n / 16 < 16 ^ h := by
          rw [Nat.div_lt_iff_lt_mul (by omega)]
          calc n < 16 ^ (h + 1) := hn
          _ = 16 ^ h * 16 := by rw [pow_succ]
        have h1 : 1 ≤ h := by
          by_contra hc
          have : h = 0 := by omega
          subst this
          simp at hdiv
          omega
        have := ih (n / 16) h1 hdiv
        simp only [List.length_append, List.length_singleton]
        omega

/-- Adding 16 ^ h to a number below 16 ^ h yields the digit 1 followed by the
number's hex digits zero-padded on the left to width h. -/
theorem hexDigits_add_pow (h : Nat) : ∀ n, 1 ≤ h → n < 16 ^ h →
    hexDigits (n + 16 ^ h)
      = 1 :: (List.replicate (h - (hexDigits n).length) 0 ++ hexDigits n) := by
  induction h with
  | zero => intro n h1; omega
  | succ h ih =>
      intro n _ hn
      rcases Nat.eq_zero_or_pos h with hz | hpos
      · subst hz
        have hp1 : (16:Nat) ^ (0 + 1) = 16 := by norm_num
        rw [hp1] at hn ⊢
        rw [hexDigits_ge (n + 16) (by omega)]
        have hq : (n + 16) / 16 = 1 := by omega
        have hr : (n + 16) % 16 = n := by omega
        rw [hq, hr, hexDigits_lt 1 (by omega), hexDigits_lt n hn]
        simp
      · have hbig : ¬ n + 16 ^ (h + 1) < 16 := by
          have : 16 ^ 1 ≤ 16 ^ (h + 1) := Nat.pow_le_pow_right (by omega) (by omega)
          simp only [pow_one] at this
          omega
        rw [hexDigits_ge _ hbig]
        have hq : (n + 16 ^ (h + 1)) / 16 = n / 16 + 16 ^ h := by
          rw [pow_succ, Nat.add_mul_div_right _ _ (by omega : (0:Nat) < 16)]
        have hr : (n + 16 ^ (h + 1)) % 16 = n % 16 := by
          rw [pow_succ, Nat.add_mul_mod_self_right]
        have hdiv : n / 16 < 16 ^ h := by
          rw [Nat.div_lt_iff_lt_mul (by omega)]
          calc n < 16 ^ (h + 1) := hn
          _ = 16 ^ h * 16 := by rw [pow_succ]
        rw [hq, hr, ih (n / 16) hpos hdiv]
        by_cases hsmall : n < 16
        · have hd0 : n / 16 = 0 := Nat.div_eq_of_lt hsmall
          have hm0 : n % 16 = n := Nat.mod_eq_of_lt hsmall
          have hrep : List.replicate (h - 1) (0:Nat) ++ [0]
              = List.replicate h (0:Nat) := by
            have hadd := List.replicate_add (h - 1) 1 (0:Nat)
            have hh : h - 1 + 1 = h := by omega
            rw [hh] at hadd
            simpa using hadd.symm
          rw [hd0, hm0, hexDigits_lt 0 (by omega), hexDigits_lt n hsmall]
          simp only [List.length_singleton, Nat.add_sub_cancel, ← hrep]
          simp
        · rw [hexDigits_ge n hsmall]
          have hlen1 : (hexDigits (n / 16) ++ [n % 16]).length
              = (hexDigits (n / 16)).length + 1 := by simp
          rw [hlen1]
          have hsub : h + 1 - ((hexDigits (n / 16)).length + 1)
              = h - (hexDigits (n / 16)).length := by omega
          rw [hsub]
          simp

/--
C4: for every numBits and every x < 2 ^ numBits (in particular every
x in [0, maxValue ^ listSize) when maxValue ^ listSize <= 2 ^ numBits),
bigIntegerToHex x numBits has exactly ceil(numBits / 4) characters, each a
hexadecimal digit, decodes back to x, and is zero-padded on the left.
-/
theorem hex_width_spec (numBits x : Nat) (hx : x < 2 ^ numBits) :
    (bigIntegerToHex x numBits).length = (numBits + 3) / 4 ∧
    fromHexDigits (bigIntegerToHex x numBits) = x ∧
    (∀ d ∈ bigIntegerToHex x numBits, d < 16) ∧
    (bigIntegerToHex x numBits).take ((numBits + 3) / 4 - (hexDigits x).length)
      = List.replicate ((numBits + 3) / 4 - (hexDigits x).length) 0 := by
  rcases Nat.eq_zero_or_pos ((numBits + 3) / 4) with hh | hh
  · have hnb : numBits = 0 := by omega
    subst hnb
    have hx0 : x = 0 := by simpa using hx
    subst hx0
    refine ⟨?_, ?_, ?_, ?_⟩ <;> simp [bigIntegerToHex, hexDigits_lt 1 (by omega),
      fromHexDigits, hexDigits_lt 0 (by omega)]
  · set h := (numBits + 3) / 4 with hdef
    have hpow : 2 ^ numBits ≤ 16 ^ h := by
      have h16 : (16:Nat) ^ h = 2 ^ (4 * h) := by
        rw [show (16:Nat) = 2 ^ 4 by norm_num, ← pow_mul]
      rw [h16]
      exact Nat.pow_le_pow_right (by omega) (by omega)
    have hxh : x < 16 ^ h := lt_of_lt_of_le hx hpow
    have hstruct := hexDigits_add_pow h x hh hxh
    have hmain : bigIntegerToHex x numBits
        = List.replicate (h - (hexDigits x).length) 0 ++ hexDigits x := by
      rw [bigIntegerToHex, ← hdef, hstruct]
      simp
    have hlenle : (hexDigits x).length ≤ h := hexDigits_length_le h x hh hxh
    refine ⟨?_, ?_, ?_, ?_⟩
    · rw [hmain]
      simp only [List.length_append, List.length_replicate]
      omega
    · rw [hmain]
      have : fromHexDigits (List.replicate (h - (hexDigits x).length) 0 ++ hexDigits x)
          = fromHexDigits (hexDigits x) := by
        generalize h - (hexDigits x).length = k
        induction k with
        | zero => simp
        | succ k ih =>
            rw [List.replicate_succ, List.cons_append]
            simp only [fromHexDigits, List.foldl_cons] at ih ⊢
            simpa using ih
      rw [this, fromHexDigits_hexDigits]
    · rw [hmain]
      intro d hd
      rcases List.mem_append.mp hd with hrep | hmem
      · have := List.eq_of_mem_replicate hrep
        omega
      · exact hexDigits_mem_lt x d hmem
    · rw [hmain]
      exact List.take_left' (List.length_replicate _ _)

/-- Witness for C4 at numBits = 8, x = 5. -/
theorem hex_width_spec_witness :
    (bigIntegerToHex 5 8).length = (8 + 3) / 4 ∧
    fromHexDigits (bigIntegerToHex 5 8) = 5 ∧
    (∀ d ∈ bigIntegerToHex 5 8, d < 16) ∧
    (bigIntegerToHex 5 8).take ((8 + 3) / 4 - (hexDigits 5).length)
      = List.replicate ((8 + 3) / 4 - (hexDigits 5).length) 0 :=
  hex_width_spec 8 5 (by decide)

/-! ## Socket pool state and bulk operations

The pool's socket set is modelled as a list of Booleans in insertion order:
true is a live socket, false is a socket that has reached readyState 3 and
has not yet been pruned.  A JS Set iterates in insertion order, so the head
of the list is the oldest socket.  Deaths occurring during a settling period
are modelled by an explicit environment function applied to the socket list;
the number of milliseconds slept by a bulk operation is returned alongside
its result. -/

/-- Embedding of SocketPool.held: the size of the socket set, dead or alive. -/
def held (pool : List Bool) : Nat :=
  pool.length

/-- Embedding of SocketPool.releaseOne: close and remove the oldest socket in
the set.  On an empty set the code dereferences undefined and throws, which is
the none branch. -/
def releaseOne (pool : List Bool) : Option (List Bool) :=
  match pool with
  | [] => none
  | _ :: rest => some rest

/-- Embedding of SocketPool.collectGarbage: drop every socket observed in the
terminal dead state. -/
def collectGarbage (pool : List Bool) : List Bool :=
  pool.filter (fun alive => alive)

/-- Embedding of consume: record held(), open `max` new sockets (each alive at
creation), sleep settlingTimeMs while the environment acts, collect garbage,
and return the new pool, the net change of held() and the milliseconds slept.
A nonpositive max opens no sockets, matching the for loop. -/
def consume (cfg : PoolConfig) (pool : List Bool) (max : Int)
    (env : List Bool → List Bool) : List Bool × Int × Nat :=
  let nStart := held pool
  let settled := collectGarbage (env (pool ++ List.replicate max.toNat true))
  (settled, (held settled : Int) - (nStart : Int), cfg.settlingTimeMs)

/-- Iterating releaseOne, propagating its failure. -/
def releaseLoop : Nat → List Bool → Option (List Bool)
  | 0, pool => some pool
  | Nat.succ n, pool => (releaseOne pool).bind (releaseLoop n)

/-- Embedding of release: return 0 at once when max = 0, otherwise release
min(max, held()) sockets oldest-first, sleep settlingTimeMs, and return the
new pool, the number released and the milliseconds slept. -/
def release (cfg : PoolConfig) (pool : List Bool) (max : Int) :
    Option (List Bool × Int × Nat) :=
  if max = 0 then some (pool, 0, 0)
  else
    (releaseLoop (min max (held pool : Int)).toNat pool).map
      (fun p => (p, min max (held pool : Int), cfg.settlingTimeMs))

/-- Embedding of probe: consume up to max, release exactly the net number
consumed, and return that number. -/
def probe (cfg : PoolConfig) (pool : List Bool) (max : Int)
    (env : List Bool → List Bool) : Option (List Bool × Int) :=
  let c := consume cfg pool max env
  (release cfg c.1 c.2.1).map (fun r => (r.1, c.2.1))

/-- Embedding of isSender: release everything held, consume maxSlots, then
keep the pool and report sender when held() has reached at least half of
maxSlots, otherwise release everything and report receiver.  The comparison
held < maxSlots / 2 is exact rational division in the code, embedded as
2 * held < maxSlots. -/
def isSender (cfg : PoolConfig) (pool : List Bool)
    (env : List Bool → List Bool) : Option (Bool × List Bool) :=
  (release cfg pool (held pool : Int)).bind (fun r1 =>
    let c := consume cfg r1.1 (cfg.maxSlots : Int) env
    if 2 * held c.1 < cfg.maxSlots then
      (release cfg c.1 (held c.1 : Int)).map (fun r3 => (false, r3.1))
    else some (true, c.1))

/-- A bulk operation, as issued by the protocol layer: each consume carries
the environment acting during its settling period. -/
inductive PoolOp where
  | bulkConsume (max : Int) (env : List Bool → List Bool) : PoolOp
  | bulkRelease (max : Int) : PoolOp

/-- Run a sequence of bulk operations from a pool state. -/
def runOps (cfg : PoolConfig) : List PoolOp → List Bool → Option (List Bool)
  | [], pool => some pool
  | PoolOp.bulkConsume max env :: rest, pool =>
      runOps cfg rest (consume cfg pool max env).1
  | PoolOp.bulkRelease max :: rest, pool =>
      (release cfg pool max).bind (fun r => runOps cfg rest r.1)

/-- Modelled from the spec: the shared intermediary (the external resource
pool service, absent from the client source) never lets more than maxSlots
units be live, so however the environment acts during a settling period, at
most maxSlots sockets survive garbage collection. -/
def RespectsCap (maxSlots : Nat) (env : List Bool → List Bool) : Prop :=
  ∀ q : List Bool, held (collectGarbage (env q)) ≤ maxSlots

/-- An operation is valid when any environment it carries respects the shared
capacity. -/
def ValidOp (maxSlots : Nat) : PoolOp → Prop
  | PoolOp.bulkConsume _ env => RespectsCap maxSlots env
  | PoolOp.bulkRelease _ => True

/-! ## Bulk-operation lemmas -/

theorem releaseLoop_eq_drop : ∀ (n : Nat) (pool : List Bool), n ≤ pool.length →
    releaseLoop n pool = some (pool.drop n) := by
  intro n
  induction n with
  | zero => intro pool _; simp [releaseLoop]
  | succ n ih =>
      intro pool hn
      match pool with
      | [] => simp at hn
      | b :: rest =>
          simp only [releaseLoop, releaseOne, Option.bind_some, Option.some_bind,
            List.drop_succ_cons]
          exact ih rest (by simpa using hn)

/-- Full characterization of release on a nonzero max. -/
theorem release_eq (cfg : PoolConfig) (pool : List Bool) (max : Int)
    (hmax : max ≠ 0) :
    release cfg pool max
      = some (pool.drop (min max (held pool : Int)).toNat,
          min max (held pool : Int), cfg.settlingTimeMs) := by
  have hle : (min max (held pool : Int)).toNat ≤ pool.length := by
    have : min max (held pool : Int) ≤ (held pool : Int) := min_le_right _ _
    simp only [held] at this ⊢
    omega
  rw [release, if_neg hmax, releaseLoop_eq_drop _ pool hle]
  rfl

/-- Release with a nonnegative count always succeeds and can only shrink the
pool. -/
theorem release_isSome_le (cfg : PoolConfig) (pool : List Bool) (max : Int) :
    ∃ r, release cfg pool max = some r ∧ r.1.length ≤ pool.length := by
  by_cases hmax : max = 0
  · subst hmax
    exact ⟨(pool, 0, 0), by simp [release], le_refl _⟩
  · refine ⟨_, release_eq cfg pool max hmax, ?_⟩
    simp only [List.length_drop]
    omega

/-- Releasing held() sockets empties the pool. -/
theorem release_all (cfg : PoolConfig) (pool : List Bool) :
    ∃ r, release cfg pool (held pool : Int) = some r ∧ r.1 = [] := by
  by_cases hp : pool = []
  · subst hp
    exact ⟨([], 0, 0), by simp [release, held], rfl⟩
  · have hmax : (held pool : Int) ≠ 0 := by
      simp only [held]
      have : 0 < pool.length := List.length_pos.mpr hp
      omega
    refine ⟨_, release_eq cfg pool _ hmax, ?_⟩
    simp only [min_self, held, Int.toNat_natCast]
    exact List.drop_length pool

/-- Consuming with no deaths on an all-alive pool appends exactly the
requested sockets and reports their number. -/
theorem consume_id_alive (cfg : PoolConfig) (pool : List Bool) (max : Int)
    (halive : ∀ b ∈ pool, b = true) :
    consume cfg pool max (fun q => q)
      = (pool ++ List.replicate max.toNat true, (max.toNat : Int),
          cfg.settlingTimeMs) := by
  have hfilter : collectGarbage (pool ++ List.replicate max.toNat true)
      = pool ++ List.replicate max.toNat true := by
    apply List.filter_eq_self.mpr
    intro a ha
    rcases List.mem_append.mp ha with h | h
    · simpa using halive a h
    · simpa using List.eq_of_mem_replicate h
  simp only [consume, hfilter, held, List.length_append, List.length_replicate,
    Prod.mk.injEq]
  simp

/--
C5 counterexample: on a pool holding one dead socket not yet pruned,
probe with max = 0 and an inert environment changes held() from 1 to 0
(the probe's garbage collection prunes the dead socket), refuting the claim
that held() is unchanged for every pool state.
-/
theorem probe_held_claim_cex :
    ¬ ((probe chromeConfig [false] 0 (fun q => q)).map (fun r => held r.1)
        = some (held [false])) := by decide

/--
C5 amended: for every pool state all of whose sockets are alive, and every
max >= 0, probe with an environment that kills nothing (no units dying
during the probe) leaves held() unchanged on completion.
-/
theorem probe_preserves_held (cfg : PoolConfig) (pool : List Bool) (max : Int)
    (_hmax : 0 ≤ max) (halive : ∀ b ∈ pool, b = true) :
    (probe cfg pool max (fun q => q)).map (fun r => held r.1)
      = some (held pool) := by
  rw [probe, consume_id_alive cfg pool max halive]
  by_cases hk : (max.toNat : Int) = 0
  · have hz : max.toNat = 0 := by omega
    rw [hz]
    simp [release]
  · rw [release_eq cfg _ _ hk]
    simp only [held, List.length_append, List.length_replicate]
    have h1 : min ((max.toNat : Nat) : Int) ((pool.length + max.toNat : Nat) : Int)
        = ((max.toNat : Nat) : Int) := by
      apply min_eq_left
      push_cast
      omega
    rw [h1, Int.toNat_natCast]
    have h2 : ((pool ++ List.replicate max.toNat true).drop max.toNat).length
        = pool.length := by
      simp only [List.length_drop, List.length_append, List.length_replicate]
      omega
    simp [h2]

/-- Witness for the amended C5 at an all-alive two-socket pool and max = 2. -/
theorem probe_preserves_held_witness :
    (probe chromeConfig [true, true] 2 (fun q => q)).map (fun r => held r.1)
      = some (held [true, true]) :=
  probe_preserves_held chromeConfig [true, true] 2 (by decide) (by decide)

/--
C6: in role negotiation, after releasing everything held and attempting to
consume maxSlots units, if the settled held-count is below maxSlots / 2
(exact division, embedded as 2 * held < maxSlots) the participant releases
everything (ending empty) and returns the receiver role; otherwise it keeps
the settled pool and returns the sender role.
-/
theorem isSender_spec (cfg : PoolConfig) (pool : List Bool)
    (env : List Bool → List Bool) :
    (2 * held (consume cfg [] (cfg.maxSlots : Int) env).1 < cfg.maxSlots →
      isSender cfg pool env = some (false, [])) ∧
    (cfg.maxSlots ≤ 2 * held (consume cfg [] (cfg.maxSlots : Int) env).1 →
      isSender cfg pool env = some (true, (consume cfg [] (cfg.maxSlots : Int) env).1)) := by
  obtain ⟨r1, hr1, hr1nil⟩ := release_all cfg pool
  rw [isSender, hr1]
  simp only [Option.some_bind, hr1nil]
  constructor
  · intro hlt
    rw [if_pos hlt]
    obtain ⟨r3, hr3, hr3nil⟩ := release_all cfg (consume cfg [] (cfg.maxSlots : Int) env).1
    rw [hr3]
    simp [hr3nil]
  · intro hge
    rw [if_neg (by omega)]

set_option maxRecDepth 8192 in
/-- Witness for C6: with an inert environment the lone participant captures
all of maxSlots and takes the sender role, keeping the settled pool. -/
theorem isSender_spec_witness :
    isSender chromeConfig [true] (fun q => q)
      = some (true, (consume chromeConfig [] (chromeConfig.maxSlots : Int)
          (fun q => q)).1) :=
  (isSender_spec chromeConfig [true] (fun q => q)).2 (by decide)

/-- Auxiliary invariant for C7: running valid bulk operations from a pool
within capacity stays within capacity. -/
theorem runOps_le_cap (cfg : PoolConfig) : ∀ (ops : List PoolOp) (pool : List Bool),
    (∀ op ∈ ops, ValidOp cfg.maxSlots op) → held pool ≤ cfg.maxSlots →
    ∀ p, runOps cfg ops pool = some p → held p ≤ cfg.maxSlots := by
  intro ops
  induction ops with
  | nil =>
      intro pool _ hpool p hp
      simp only [runOps, Option.some_inj] at hp
      rwa [← hp]
  | cons op rest ih =>
      intro pool hv hpool p hp
      match op with
      | PoolOp.bulkConsume max env =>
          have hval : ValidOp cfg.maxSlots (PoolOp.bulkConsume max env) :=
            hv _ (List.mem_cons_self _ _)
          have hcap : RespectsCap cfg.maxSlots env := hval
          rw [runOps] at hp
          exact ih (consume cfg pool max env).1
            (fun o ho => hv o (List.mem_cons_of_mem _ ho))
            (hcap (pool ++ List.replicate max.toNat true)) p hp
      | PoolOp.bulkRelease max =>
          obtain ⟨r, hr, hle⟩ := release_isSome_le cfg pool max
          rw [runOps, hr] at hp
          simp only [Option.some_bind] at hp
          exact ih r.1 (fun o ho => hv o (List.mem_cons_of_mem _ ho))
            (by simp only [held] at hpool ⊢; omega) p hp

/--
C7: after any finite sequence of bulk consume and release operations
starting from an empty pool, where each consume's environment respects the
shared capacity (modelled from the spec), held() is at most maxSlots
(and is a natural number, hence at least 0).
-/
theorem capacity_invariant (cfg : PoolConfig) (ops : List PoolOp)
    (hv : ∀ op ∈ ops, ValidOp cfg.maxSlots op) (p : List Bool)
    (hrun : runOps cfg ops [] = some p) : held p ≤ cfg.maxSlots :=
  runOps_le_cap cfg ops [] hv (by simp [held]) p hrun

/-- Garbage collection of an all-dead socket list leaves nothing. -/
theorem collectGarbage_const_false (q : List Bool) :
    collectGarbage (q.map (fun _ => false)) = [] := by
  simp [collectGarbage]

/-- Witness for C7: one bulk consume whose sockets all die settles at an
empty pool, within capacity. -/
theorem capacity_invariant_witness : held ([] : List Bool) ≤ chromeConfig.maxSlots :=
  capacity_invariant chromeConfig
    [PoolOp.bulkConsume 3 (fun q => q.map (fun _ => false))]
    (by
      intro op hop
      simp only [List.mem_singleton] at hop
      subst hop
      intro q
      rw [collectGarbage_const_false]
      exact Nat.zero_le _)
    [] (by decide)

/--
C8 counterexample: with the Firefox preset (settlingTimeMs = 50), release
with max = 0 returns immediately without sleeping the settling time,
refuting the claim that the bulk release waits settlingTimeMs before
returning for every max >= 0.
-/
theorem release_settling_claim_cex :
    ¬ ((release firefoxConfig [true] 0).map (fun r => r.2.2)
        = some firefoxConfig.settlingTimeMs) := by decide

/--
C8 amended: for every pool state and every max >= 1, release releases
exactly min(max, held()) sockets oldest-first (dropping a prefix of the
insertion-ordered pool), sleeps settlingTimeMs, and returns min(max, held());
for max = 0 it instead returns 0 immediately, releasing nothing and not
sleeping.
-/
theorem release_spec (cfg : PoolConfig) (pool : List Bool) (max : Nat)
    (hmax : 1 ≤ max) :
    release cfg pool (max : Int)
      = some (pool.drop (min max (held pool)),
          ((min max (held pool) : Nat) : Int), cfg.settlingTimeMs) ∧
    release cfg pool 0 = some (pool, 0, 0) := by
  constructor
  · have hne : (max : Int) ≠ 0 := by omega
    rw [release_eq cfg pool _ hne]
    have hcast : min (max : Int) (held pool : Int) = ((min max (held pool) : Nat) : Int) := by
      rw [Nat.cast_min]
    rw [hcast, Int.toNat_natCast]
  · simp [release]

/-- Witness for the amended C8 at the Firefox preset, a two-socket pool and
max = 1. -/
theorem release_spec_witness :
    (release firefoxConfig [true, false] ((1 : Nat) : Int)
      = some (([true, false] : List Bool).drop (min 1 (held [true, false])),
          ((min 1 (held [true, false]) : Nat) : Int), firefoxConfig.settlingTimeMs)) ∧
    release firefoxConfig [true, false] 0 = some ([true, false], 0, 0) :=
  release_spec firefoxConfig [true, false] 1 (by decide)

/--
C10: for every pool state and every max >= 0, bulk release computes
min(max, held()) before releasing, so releaseOne is invoked at most held()
times, never on an empty pool, and the error branch of releaseOne is
unreachable: release always returns a result.
-/
theorem release_never_fails (cfg : PoolConfig) (pool : List Bool) (max : Int)
    (_hmax : 0 ≤ max) :
    (release cfg pool max).isSome = true ∧
    (min max (held pool : Int)).toNat ≤ held pool := by
  constructor
  · by_cases h : max = 0
    · simp [release, h]
    · rw [release_eq cfg pool max h]
      rfl
  · have h := min_le_right max (held pool : Int)
    omega

/-- Witness for C10 at a one-socket pool and max = 2. -/
theorem release_never_fails_witness :
    (release chromeConfig [true] 2).isSome = true ∧
    (min 2 (held [true] : Int)).toNat ≤ held [true] :=
  release_never_fails chromeConfig [true] 2 (by decide)

/-! ## Held-count model of the pulse exchange

Here the transmitter's per-pulse adjustment (sendInteger's loop body) and the
receiver's probe are tracked at the level of held-counts, with both agents
sharing the externally capped pool.  The capacity behaviour of the shared
intermediary is modelled from the spec; everything else follows the client
source. -/

/-- Modelled from the spec: the shared intermediary accepts new units only up
to the capacity maxSlots, counting both agents' live connections; a bulk
consume of req units by the agent holding own (the other agent holding other)
therefore settles at own plus min(req, maxSlots - own - other). -/
def sharedConsume (maxSlots other own req : Nat) : Nat :=
  own + min req (maxSlots - (own + other))

/-- Held-count effect of release: min(req, held) sockets are dropped. -/
def countRelease (own req : Nat) : Nat :=
  own - min req own

/-- Embedding of the transmitter's adjustment at pulse start, from
sendInteger: with integer = 1 + digit, the Firefox path consumes
lastInteger + 5 then releases integer; the other path computes
delta = integer - lastInteger and releases delta when positive, otherwise
consumes -delta. -/
def sendAdjust (cfg : PoolConfig) (firefox : Bool) (other own lastInteger d : Nat) :
    Nat :=
  let integer := 1 + d
  if firefox then
    countRelease (sharedConsume cfg.maxSlots other own (lastInteger + 5)) integer
  else if lastInteger < integer then
    countRelease own (integer - lastInteger)
  else
    sharedConsume cfg.maxSlots other own (lastInteger - integer)

/-- Held-count value returned by the receiver's probe: the net number of
units it managed to consume before releasing them again. -/
def probeResultCount (maxSlots other own req : Nat) : Nat :=
  sharedConsume maxSlots other own req - own

/-- One cycle of transfer pulses: at each pulse the transmitter adjusts
(while the receiver holds nothing), then the receiver probes maxValue.
Returns, per pulse, the transmitter's held-count for the pulse and the
probe result. -/
def runPulses (cfg : PoolConfig) (firefox : Bool) :
    Nat → Nat → List Nat → List (Nat × Nat)
  | _, _, [] => []
  | own, lastInteger, d :: rest =>
      let own2 := sendAdjust cfg firefox 0 own lastInteger d
      let pr := probeResultCount cfg.maxSlots own2 0 cfg.maxValue
      (own2, pr) :: runPulses cfg firefox own2 (1 + d) rest

/-- The receiver's probe touches nothing it keeps: it ends back at its own
previous held-count (here 0), justifying other = 0 at the next adjustment. -/
theorem probe_returns_held (maxSlots other req : Nat) :
    countRelease (sharedConsume maxSlots other 0 req)
      (probeResultCount maxSlots other 0 req) = 0 := by
  simp [countRelease, sharedConsume, probeResultCount]

/-- The transmitter's adjustment step, on either path, moves its held-count
from maxSlots - lastInteger to maxSlots - (1 + d). -/
theorem sendAdjust_eq (cfg : PoolConfig) (firefox : Bool) (lastInteger d : Nat)
    (hlast : lastInteger ≤ cfg.maxValue) (hd : d < cfg.maxValue)
    (hcap : cfg.maxValue ≤ cfg.maxSlots) :
    sendAdjust cfg firefox 0 (cfg.maxSlots - lastInteger) lastInteger d
      = cfg.maxSlots - (1 + d) := by
  unfold sendAdjust countRelease sharedConsume
  by_cases hf : firefox
  · simp only [if_pos hf]
    omega
  · simp only [if_neg hf]
    by_cases hlt : lastInteger < 1 + d
    · rw [if_pos hlt]
      omega
    · rw [if_neg hlt]
      omega

/-- The probe during a pulse in which the transmitter holds
maxSlots - (1 + d) returns exactly 1 + d. -/
theorem probeResultCount_eq (cfg : PoolConfig) (d : Nat) (hd : d < cfg.maxValue)
    (hcap : cfg.maxValue ≤ cfg.maxSlots) :
    probeResultCount cfg.maxSlots (cfg.maxSlots - (1 + d)) 0 cfg.maxValue
      = 1 + d := by
  simp only [probeResultCount, sharedConsume]
  omega

/-- Generalized per-pulse invariant behind the digit-fidelity theorem. -/
theorem runPulses_getD (cfg : PoolConfig) (firefox : Bool)
    (hcap : cfg.maxValue ≤ cfg.maxSlots) :
    ∀ (digits : List Nat) (lastInteger : Nat), lastInteger ≤ cfg.maxValue →
      (∀ d ∈ digits, d < cfg.maxValue) →
      ∀ i, i < digits.length →
        (runPulses cfg firefox (cfg.maxSlots - lastInteger) lastInteger digits).getD i (0, 0)
          = (cfg.maxSlots - (digits.getD i 0 + 1), digits.getD i 0 + 1) := by
  intro digits
  induction digits with
  | nil => intro lastInteger _ _ i hi; simp at hi
  | cons d rest ih =>
      intro lastInteger hlast hmem i hi
      have hd : d < cfg.maxValue := hmem d (List.mem_cons_self _ _)
      rw [runPulses]
      simp only [sendAdjust_eq cfg firefox lastInteger d hlast hd hcap,
        probeResultCount_eq cfg d hd hcap]
      cases i with
      | zero =>
          simp only [List.getD_cons_zero]
          rw [Nat.add_comm d 1]
      | succ j =>
          simp only [List.getD_cons_succ]
          exact ih (1 + d) (by omega) (fun x hx => hmem x (List.mem_cons_of_mem _ hx))
            j (by simpa using hi)

/--
C1 counterexample: with the Chrome preset and digit list [0], after the
transmitter's adjustment for pulse 0 it holds maxSlots - 1 = 254 units, not
d + 1 = 1; the claim that the pool's held-count equals d + 1 is false.
-/
theorem digit_fidelity_claim_cex :
    ¬ ((runPulses chromeConfig false chromeConfig.maxSlots 0 [0]).getD 0 (0, 0)
        = (0 + 1, 0 + 1)) := by decide

/--
C1 amended: for every pulse i and digit d = digits[i] < maxValue, with no
interfering third party and the shared capacity as the only consume limit,
after the transmitter's adjustment for pulse i its held-count is
maxSlots - (d + 1) — equivalently the unheld count is d + 1 — and the
receiver's probe(maxValue) during that pulse returns d + 1, so the recovered
digit (probe result minus 1) is exactly d.  This holds on both adjustment
paths of sendInteger.
-/
theorem digit_fidelity (cfg : PoolConfig) (firefox : Bool) (digits : List Nat)
    (hcap : cfg.maxValue ≤ cfg.maxSlots) (hmem : ∀ d ∈ digits, d < cfg.maxValue)
    (i : Nat) (hi : i < digits.length) :
    (runPulses cfg firefox cfg.maxSlots 0 digits).getD i (0, 0)
      = (cfg.maxSlots - (digits.getD i 0 + 1), digits.getD i 0 + 1) := by
  have h := runPulses_getD cfg firefox hcap digits 0 (Nat.zero_le _) hmem i hi
  simpa using h

/-- Witness for the amended C1: Chrome preset, digits [3, 7], pulse 1. -/
theorem digit_fidelity_witness :
    (runPulses chromeConfig false chromeConfig.maxSlots 0 [3, 7]).getD 1 (0, 0)
      = (chromeConfig.maxSlots - (([3, 7] : List Nat).getD 1 0 + 1),
          ([3, 7] : List Nat).getD 1 0 + 1) :=
  digit_fidelity chromeConfig false [3, 7] (by decide) (by decide) 1 (by decide)

/-! ## Pulse schedule and cycle start -/

/-- Wake-up time of the transmitter for pulse i, from sendInteger:
startTime + (i + 1) * pulseMs. -/
def senderPulseStart (cfg : PoolConfig) (t0 : ℚ) (i : Nat) : ℚ :=
  t0 + ((i : ℚ) + 1) * (cfg.pulseMs : ℚ)

/-- Wake-up time of the receiver for pulse i, from receiveInteger:
startTime + (i + 1.25) * pulseMs. -/
def receiverProbeTime (cfg : PoolConfig) (t0 : ℚ) (i : Nat) : ℚ :=
  t0 + ((i : ℚ) + 1.25) * (cfg.pulseMs : ℚ)

/--
C3 counterexample: with the Chrome preset, t0 = 0 and pulse 0, the receiver
wakes at 62.5 ms, not at t0 + (0 + 0.25) * pulseMs = 12.5 ms; the claimed
suspension time t0 + (i + 0.25) * pulseMs is wrong.
-/
theorem receiver_wake_claim_cex :
    ¬ (receiverProbeTime chromeConfig 0 0 = 0 + ((0 : ℚ) + 0.25) * (chromeConfig.pulseMs : ℚ)) := by
  norm_num [receiverProbeTime, chromeConfig]

/--
C3 amended: for every pulse i in [0, listSize), the receiver suspends until
t0 + (i + 1.25) * pulseMs, which is a quarter-pulse after that pulse's
boundary t0 + (i + 1) * pulseMs (the transmitter's adjustment time), before
probing and recovering the digit as the probe result minus 1.
-/
theorem receiver_wake_quarter_after_boundary (cfg : PoolConfig) (t0 : ℚ) (i : Nat)
    (_hi : i < cfg.listSize) :
    receiverProbeTime cfg t0 i = senderPulseStart cfg t0 i + (cfg.pulseMs : ℚ) / 4 := by
  unfold receiverProbeTime senderPulseStart
  ring

/-- Witness for the amended C3 at the Chrome preset, t0 = 0, pulse 0. -/
theorem receiver_wake_quarter_after_boundary_witness :
    receiverProbeTime chromeConfig 0 0
      = senderPulseStart chromeConfig 0 0 + (chromeConfig.pulseMs : ℚ) / 4 :=
  receiver_wake_quarter_after_boundary chromeConfig 0 0 (by decide)

/-- Embedding of sleepUntilNextRoundInterval: Math.ceil(now / interval) *
interval on integer inputs, with the ceiling division written in Nat. -/
def sleepUntilNextRoundInterval (now interval : Nat) : Nat :=
  ((now + interval - 1) / interval) * interval

/-- Cycle start time as computed in run: the next round multiple of
(1 + listSize) * pulseMs. -/
def cycleStartTime (cfg : PoolConfig) (now : Nat) : Nat :=
  sleepUntilNextRoundInterval now ((1 + cfg.listSize) * cfg.pulseMs)

/-- Rounding up to a multiple: the result is a multiple of the interval, is
at least now, and no smaller multiple of the interval is at least now. -/
theorem sleepUntilNextRoundInterval_spec (now interval : Nat) (hpos : 0 < interval) :
    interval ∣ sleepUntilNextRoundInterval now interval ∧
    now ≤ sleepUntilNextRoundInterval now interval ∧
    ∀ m, interval ∣ m → now ≤ m → sleepUntilNextRoundInterval now interval ≤ m := by
  unfold sleepUntilNextRoundInterval
  set q := (now + interval - 1) / interval with hq
  refine ⟨⟨q, Nat.mul_comm q interval⟩, ?_, ?_⟩
  · have hmod := Nat.div_add_mod (now + interval - 1) interval
    have hlt : (now + interval - 1) % interval < interval := Nat.mod_lt _ hpos
    rw [← hq] at hmod
    rw [Nat.mul_comm]
    generalize hr : (now + interval - 1) % interval = r at hmod hlt
    generalize hA : interval * q = A at hmod
    omega
  · intro m hdvd hle
    obtain ⟨k, rfl⟩ := hdvd
    have harg : now + interval - 1 ≤ interval * k + interval - 1 :=
      Nat.sub_le_sub_right (Nat.add_le_add_right hle interval) 1
    have hmono : q ≤ (interval * k + interval - 1) / interval := by
      rw [hq]
      exact Nat.div_le_div_right harg
    have hik : (interval * k + interval - 1) / interval = k := by
      have h1 : interval * k + interval - 1 = interval * k + (interval - 1) := by omega
      rw [h1, Nat.mul_add_div hpos, Nat.div_eq_of_lt (by omega)]
      omega
    rw [hik] at hmono
    calc q * interval ≤ k * interval := Nat.mul_le_mul_right _ hmono
    _ = interval * k := Nat.mul_comm _ _

/--
C9: every cycle's start time t0 is the current time rounded up to the next
multiple of the total cycle duration (listSize + 1) * pulseMs: t0 is a
multiple of that interval and is the smallest such multiple at least the
scheduling time.
-/
theorem cycle_start_round_up (cfg : PoolConfig) (now : Nat) (hp : 0 < cfg.pulseMs) :
    ((1 + cfg.listSize) * cfg.pulseMs) ∣ cycleStartTime cfg now ∧
    now ≤ cycleStartTime cfg now ∧
    ∀ m, ((1 + cfg.listSize) * cfg.pulseMs) ∣ m → now ≤ m →
      cycleStartTime cfg now ≤ m :=
  sleepUntilNextRoundInterval_spec now ((1 + cfg.listSize) * cfg.pulseMs)
    (by positivity)

/-- Witness for C9 at the Chrome preset and now = 101 (the cycle interval is
300 ms, so t0 = 300). -/
theorem cycle_start_round_up_witness :
    ((1 + chromeConfig.listSize) * chromeConfig.pulseMs) ∣ cycleStartTime chromeConfig 101 ∧
    101 ≤ cycleStartTime chromeConfig 101 :=
  ⟨(cycle_start_round_up chromeConfig 101 (by decide)).1,
    (cycle_start_round_up chromeConfig 101 (by decide)).2.1⟩

end PoolParty
